import Mathlib

/-!
Verification of the Kalshi analyzer core (`netlify/netlify/functions/analyze.py`).

The Python source is shallowly embedded as follows.

* Python floats are modelled as exact rationals (`ℚ`); every threshold and
  arithmetic step the claims mention is exact at the inputs considered.
* External effects (HTTP calls to the market API, NewsAPI, the RSS feed, and
  the language-model endpoint) are modelled as explicit outcome values carried
  in a `World` record: an `Except` value is either the raised transport
  exception or the `(status, payload)` the call produced.
* Python exceptions that the source code can actually raise and not catch
  (`AttributeError` from `.get` on a non-dict, `TypeError` from subtracting a
  non-number) are modelled with `Except String`; code that the source wraps in
  `try/except Exception` is modelled as a total function returning the
  documented fallback value.
* `json.loads` is modelled by a fuel-based recursive-descent parser over the
  RFC 8259 grammar (objects, arrays, strings with escapes, numbers with
  optional fraction/exponent and the leading-zero restriction, literals,
  the four JSON whitespace characters).  Numbers are parsed exactly into `ℚ`;
  the `NaN`/`Infinity` extensions of Python's decoder are not modelled, so the
  embedded grammar is a sound subset of what `json.loads` accepts.
* `str.strip` and `str.replace` are modelled over `List Char`; `str.replace`
  replaces every occurrence, scanning left to right without overlap, exactly
  as in CPython (the source only ever replaces nonempty patterns by `""`).
-/

namespace KalshiSpec

/-! ### Python / JSON character classes and string primitives -/

/-- Characters removed by Python's `str.strip()` (the ASCII whitespace set;
the source never feeds non-ASCII whitespace to `strip`). -/
def pySpace (c : Char) : Bool :=
  c == ' ' || c == '\t' || c == '\n' || c == '\r' || c == '\x0b' || c == '\x0c'

/-- The whitespace characters skipped by `json.loads` between tokens. -/
def jsonSpace (c : Char) : Bool :=
  c == ' ' || c == '\t' || c == '\n' || c == '\r'

/-- Skip JSON whitespace. -/
def wsDrop (s : List Char) : List Char := s.dropWhile jsonSpace

/-- Python `str.strip()`: drop Python whitespace from both ends. -/
def pyStrip (s : List Char) : List Char :=
  ((s.dropWhile pySpace).reverse.dropWhile pySpace).reverse

/-- Python `str.replace pat rep` for a nonempty `pat`: replace every
occurrence, scanning left to right without overlap. -/
def pyReplace (pat rep : List Char) : List Char → List Char
  | [] => []
  | c :: cs =>
    if h : pat ≠ [] ∧ pat <+: (c :: cs) then
      rep ++ pyReplace pat rep ((c :: cs).drop pat.length)
    else
      c :: pyReplace pat rep cs
termination_by s => s.length
decreasing_by
  · simp only [List.length_drop, List.length_cons]
    have hp : 0 < pat.length := List.length_pos.mpr h.1
    omega
  · simp only [List.length_cons]
    omega

/-! ### The JSON value model and the `json.loads` parser -/

/-- A parsed JSON value, as produced by `json.loads` (numbers exact in `ℚ`;
objects keep their members in textual order, with lookups taking the last
binding of a duplicated key, as a Python `dict` built left to right does). -/
inductive JVal where
  | jnull
  | jbool (b : Bool)
  | jnum (q : ℚ)
  | jstr (s : String)
  | jarr (elems : List JVal)
  | jobj (members : List (String × JVal))

instance : Inhabited JVal := ⟨.jnull⟩

/-- Decimal digit test for the number grammar. -/
def isDig (c : Char) : Bool := '0' ≤ c && c ≤ '9'

/-- Value of a digit run, most significant first. -/
def digitsVal (ds : List Char) : Nat :=
  ds.foldl (fun a c => a * 10 + (c.toNat - 48)) 0

/-- Hexadecimal digit value, for `\uXXXX` escapes. -/
def hexDig (c : Char) : Option Nat :=
  if '0' ≤ c && c ≤ '9' then some (c.toNat - 48)
  else if 'a' ≤ c && c ≤ 'f' then some (c.toNat - 87)
  else if 'A' ≤ c && c ≤ 'F' then some (c.toNat - 55)
  else none

/-- Single-character JSON escapes, as a lookup table from the escape letter
to the character it denotes. -/
def escTable : List (Char × Char) :=
  [('"', '"'), ('\\', '\\'), ('/', '/'), ('b', '\x08'), ('f', '\x0c'),
   ('n', '\n'), ('r', '\r'), ('t', '\t')]

/-- Decode a single-character JSON escape. -/
def escChar (c : Char) : Option Char := escTable.lookup c

/-- Body of a JSON string after the opening quote: literal characters
(raw control characters are rejected, as in strict-mode `json.loads`),
escapes, and `\uXXXX`; returns the decoded string and the input after the
closing quote. -/
def strBody (acc : List Char) : List Char → Option (String × List Char)
  | [] => none
  | '"' :: rest => some (⟨acc.reverse⟩, rest)
  | '\\' :: 'u' :: a :: b :: c :: d :: rest =>
    match hexDig a, hexDig b, hexDig c, hexDig d with
    | some x1, some x2, some x3, some x4 =>
      strBody (Char.ofNat (((x1 * 16 + x2) * 16 + x3) * 16 + x4) :: acc) rest
    | _, _, _, _ => none
  | '\\' :: e :: rest =>
    match escChar e with
    | some ch => strBody (ch :: acc) rest
    | none => none
  | c :: rest => if c.toNat < 32 then none else strBody (c :: acc) rest
termination_by s => s.length

/-- Optional exponent part of a JSON number: `e`/`E`, an optional sign, and a
nonempty digit run; absent exponents contribute `0`. -/
def expPart (s : List Char) : Option (Int × List Char) :=
  match s with
  | 'e' :: r | 'E' :: r =>
    let (sgn, r1) : Int × List Char :=
      match r with
      | '+' :: r2 => (1, r2)
      | '-' :: r2 => (-1, r2)
      | _ => (1, r)
    let eds := r1.takeWhile isDig
    if eds.isEmpty then none
    else some (sgn * (digitsVal eds : Int), r1.dropWhile isDig)
  | _ => some (0, s)

/-- JSON number: optional minus, an integer part with no redundant leading
zero, an optional fraction, an optional exponent; the exact rational value. -/
def numToken (s : List Char) : Option (JVal × List Char) :=
  let (neg, s1) : Bool × List Char :=
    match s with
    | '-' :: r => (true, r)
    | _ => (false, s)
  let ds := s1.takeWhile isDig
  let s2 := s1.dropWhile isDig
  if ds.isEmpty then none
  else if 1 < ds.length && ds.headD '0' == '0' then none
  else
    let fracRes : Option (List Char × List Char) :=
      match s2 with
      | '.' :: r =>
        if (r.takeWhile isDig).isEmpty then none
        else some (r.takeWhile isDig, r.dropWhile isDig)
      | _ => some ([], s2)
    match fracRes with
    | none => none
    | some (fs, s3) =>
      match expPart s3 with
      | none => none
      | some (e, s4) =>
        let mag : ℚ := (digitsVal ds : ℚ) + (digitsVal fs : ℚ) / (10 : ℚ) ^ fs.length
        let scaled : ℚ :=
          if 0 ≤ e then mag * (10 : ℚ) ^ e.toNat else mag / (10 : ℚ) ^ (-e).toNat
        some (.jnum (if neg then -scaled else scaled), s4)

mutual

/-- One JSON value, after skipping leading whitespace; `fuel` bounds the
recursion depth (a value of length `n` needs at most `n + 1` fuel, since every
recursive descent first consumes at least one character). -/
def jValue : Nat → List Char → Option (JVal × List Char)
  | 0, _ => none
  | fuel + 1, s =>
    match wsDrop s with
    | 'n' :: 'u' :: 'l' :: 'l' :: r => some (.jnull, r)
    | 't' :: 'r' :: 'u' :: 'e' :: r => some (.jbool true, r)
    | 'f' :: 'a' :: 'l' :: 's' :: 'e' :: r => some (.jbool false, r)
    | '"' :: r =>
      match strBody [] r with
      | some (st, r1) => some (.jstr st, r1)
      | none => none
    | '\x7b' :: r =>
      (match wsDrop r with
       | '\x7d' :: r2 => some (.jobj [], r2)
       | r2 => (jMembers fuel r2).map fun p => (.jobj p.1, p.2))
    | '[' :: r =>
      (match wsDrop r with
       | ']' :: r2 => some (.jarr [], r2)
       | r2 => (jItems fuel r2).map fun p => (.jarr p.1, p.2))
    | r => numToken r

/-- One or more `"key": value` members, the input starting at a key (no
leading whitespace); consumes the closing brace. -/
def jMembers : Nat → List Char → Option (List (String × JVal) × List Char)
  | 0, _ => none
  | fuel + 1, s =>
    match s with
    | '"' :: r =>
      (match strBody [] r with
       | none => none
       | some (key, r1) =>
         match wsDrop r1 with
         | ':' :: r2 =>
           (match jValue fuel r2 with
            | none => none
            | some (v, r3) =>
              match wsDrop r3 with
              | ',' :: r4 => (jMembers fuel (wsDrop r4)).map fun p => ((key, v) :: p.1, p.2)
              | '\x7d' :: r4 => some ([(key, v)], r4)
              | _ => none)
         | _ => none)
    | _ => none

/-- One or more comma-separated array elements; consumes the closing bracket. -/
def jItems : Nat → List Char → Option (List JVal × List Char)
  | 0, _ => none
  | fuel + 1, s =>
    match jValue fuel s with
    | none => none
    | some (v, r) =>
      match wsDrop r with
      | ',' :: r2 => (jItems fuel r2).map fun p => (v :: p.1, p.2)
      | ']' :: r2 => some ([v], r2)
      | _ => none

end

/-- `json.loads`: parse one JSON document, allowing only trailing whitespace
after it. -/
def loadsValue (t : String) : Option JVal :=
  match jValue (t.length + 1) t.data with
  | some (v, rest) => if wsDrop rest = [] then some v else none
  | none => none

/-! ### The fence-stripping step of `analyze_event`

`response_text.strip().replace('```json\n', '').replace('```', '').strip()`. -/

/-- The long fence marker `'```json\n'` removed first. -/
def fencePat : List Char := "```json\n".data

/-- The short fence marker `'```'` removed second. -/
def tickPat : List Char := "```".data

/-- The full text normalization the source applies to the model response
before `json.loads`. -/
def processText (t : String) : String :=
  ⟨pyStrip (pyReplace tickPat [] (pyReplace fencePat [] (pyStrip t.data)))⟩

/-! ### Data model (§3): markets, news sources, analysis results -/

/-- A market object from the market API.  Fields are `Option`s because the
source reads every field with `dict.get` and a default; `none` models an
absent key.  `yes_bid` is the integer percent the API reports. -/
structure Market where
  ticker : Option String
  title : Option String
  subtitle : Option String
  yes_bid : Option Int

/-- A news source record as built by `search_news` (all four keys always
present there, so the fields are plain strings). -/
structure NewsSource where
  title : String
  description : String
  url : String
  source : String

/-- An article object from the primary news provider; `Option` fields model
keys the provider may omit (`.get` defaults apply). -/
structure Article where
  title : Option String
  description : Option String
  url : Option String
  sourceName : Option String

/-- An `item` element of the fallback RSS feed; `none` models a missing
`title`/`link` child. -/
structure RssItem where
  title : Option String
  link : Option String

/-- One row of the analysis output.  `estimated_probability` holds the
numeric value of the model's field (Python would store the raw JSON value,
e.g. a bool, but it is only ever a value the subtraction accepted, so its
numeric coercion is stored); `confidence` and `reasoning` hold the raw JSON
values, exactly as Python stores them. -/
structure AnalysisResult where
  ticker : String
  title : String
  market_price : ℚ
  estimated_probability : ℚ
  edge : ℚ
  edge_percent : String
  confidence : JVal
  recommendation : String
  reasoning : JVal
  sources_count : Nat

instance : Inhabited AnalysisResult := ⟨⟨"", "", 0, 0, 0, "", .jnull, "", .jnull, 0⟩⟩

/-- The external world one request sees: each collaborator's outcome.
`.error` is a raised transport/parse exception; `.ok (status, payload)` is a
completed HTTP response.  The news and model collaborators are keyed by the
query/prompt the source sends them. -/
structure World where
  marketResp : Except Unit (Nat × Option (List Market))
  newsApiKey : Option String
  newsApi : String → Except Unit (Nat × List Article)
  rss : String → Except Unit (Nat × List RssItem)
  model : String → Except String String

/-! ### Market Source Adapter (§4.1): `get_active_markets` -/

/-- `get_active_markets`: on HTTP 200 return the body's `markets` list
(defaulting to `[]` if the key is absent); on any other status or any raised
exception return `[]`. -/
def get_active_markets (resp : Except Unit (Nat × Option (List Market))) : List Market :=
  match resp with
  | .error _ => []
  | .ok (status, body) => if status = 200 then body.getD [] else []

/-! ### News Lookup (§4.2): `search_news` -/

/-- Map a primary-provider article to a `NewsSource` (`.get` defaults). -/
def articleSource (a : Article) : NewsSource :=
  ⟨a.title.getD "", a.description.getD "", a.url.getD "", a.sourceName.getD "Unknown"⟩

/-- Map a fallback RSS item to a `NewsSource`: the description is left
empty and the source name is the fixed feed name. -/
def itemSource (it : RssItem) : NewsSource :=
  ⟨it.title.getD "", "", it.link.getD "", "Google News"⟩

/-- The NewsAPI step of `search_news`: skipped entirely without a key;
on HTTP 200 the first five articles are mapped; a non-200 status or a raised
exception contributes nothing. -/
def primary_sources (key : Option String) (resp : Except Unit (Nat × List Article)) :
    List NewsSource :=
  match key with
  | none => []
  | some _ =>
    match resp with
    | .error _ => []
    | .ok (status, articles) =>
      if status = 200 then (articles.take 5).map articleSource else []

/-- The Google-News-RSS step of `search_news`: on HTTP 200 the first five
`item` elements are mapped; a non-200 status or a raised exception
contributes nothing. -/
def fallback_sources (resp : Except Unit (Nat × List RssItem)) : List NewsSource :=
  match resp with
  | .error _ => []
  | .ok (status, items) =>
    if status = 200 then (items.take 5).map itemSource else []

/-- `search_news`: try the primary step; only when it produced no sources,
append what the fallback step yields. -/
def search_news (key : Option String) (prim : Except Unit (Nat × List Article))
    (fb : Except Unit (Nat × List RssItem)) : List NewsSource :=
  let sources := primary_sources key prim
  if sources.isEmpty then sources ++ fallback_sources fb else sources

/-! ### Probability Estimator (§4.3): `analyze_event` -/

/-- One numbered line of the prompt's source list:
`"{i}. [{source}] {title}\n"`. -/
def sourceLine (i : Nat) (s : NewsSource) : String :=
  toString i ++ ". [" ++ s.source ++ "] " ++ s.title ++ "\n"

/-- The enumerated source block of the prompt (`enumerate(sources[:5], 1)`). -/
def promptLines (sources : List NewsSource) : String :=
  String.join ((sources.take 5).enum.map fun p => sourceLine (p.1 + 1) p.2)

/-- The `context` block of the prompt: event title, ticker, current market
price in percent (defaulting to `50`), and the source list. -/
def buildContext (m : Market) (sources : List NewsSource) : String :=
  "Event: " ++ m.title.getD "N/A" ++ "\nTicker: " ++ m.ticker.getD "N/A" ++
    "\nCurrent Market Price: " ++ toString (m.yes_bid.getD 50) ++
    "%\n\nRecent Sources:\n" ++ promptLines sources

/-- The fixed instruction block appended after the context. -/
def instrBlock : String :=
  "\n\nAnalyze this prediction market and provide your estimate in JSON:\n\x7b\n    \"estimated_probability\": <0-1>,\n    \"confidence\": \"LOW|MEDIUM|HIGH\",\n    \"reasoning\": \"<brief explanation>\"\n\x7d\n\nRESPOND ONLY WITH VALID JSON."

/-- The full prompt `analyze_event` sends to the model. -/
def buildPrompt (m : Market) (sources : List NewsSource) : String :=
  buildContext m sources ++ instrBlock

/-- A representative `str(json.JSONDecodeError)` text; the claims depend
only on the `"Error: "` prefix the source prepends, never on this message. -/
def jsonDecodeMsg : String := "Expecting value: line 1 column 1 (char 0)"

/-- The neutral estimate dict the `except` branch of `analyze_event`
returns: `{0.5, "LOW", "Error: <message>"}`. -/
def fallbackEstimate (msg : String) : JVal :=
  .jobj [("estimated_probability", .jnum (1/2)), ("confidence", .jstr "LOW"),
    ("reasoning", .jstr ("Error: " ++ msg))]

/-- The response-handling tail of `analyze_event`: a raised exception (from
the API call or from indexing the response) yields the fallback dict; an
obtained text is fence-stripped and parsed, a parse failure again yielding
the fallback dict.  Any successfully parsed JSON value is returned as is —
the keys are not checked here. -/
def parseModelResponse (resp : Except String String) : JVal :=
  match resp with
  | .error e => fallbackEstimate e
  | .ok text =>
    match loadsValue (processText text) with
    | some v => v
    | none => fallbackEstimate jsonDecodeMsg

/-- `analyze_event`: build the prompt, obtain the model's response for it,
and handle that response.  Total: every failure is absorbed into the
fallback dict. -/
def analyze_event (model : String → Except String String) (m : Market)
    (sources : List NewsSource) : JVal :=
  parseModelResponse (model (buildPrompt m sources))

/-! ### Edge & Recommendation Engine (§4.4) and `run_analysis` (§4.5) -/

/-- Python `==` between a JSON value and a string literal: only a string
compares equal; any other runtime type is simply unequal, never an error. -/
def jsonEqStr : JVal → String → Bool
  | .jstr t, s => t == s
  | _, _ => false

/-- The recommendation ladder of `run_analysis`, verbatim from the source's
`if`/`elif` chain (first match wins). -/
def recommendation (confidence : JVal) (edge : ℚ) : String :=
  if jsonEqStr confidence "HIGH" && decide (edge > 0.10) then "STRONG_BUY"
  else if jsonEqStr confidence "HIGH" && decide (edge > 0.05) then "BUY"
  else if jsonEqStr confidence "HIGH" && decide (edge < -0.10) then "STRONG_SELL"
  else if edge > 0.15 then "BUY"
  else if edge < -0.15 then "SELL"
  else "HOLD"

/-- Python `dict`-style lookup on a member list: the last binding of a
duplicated key wins, as in a dict built left to right. -/
def jsonLookup (fields : List (String × JVal)) (key : String) : Option JVal :=
  fields.foldl (fun acc kv => if kv.1 = key then some kv.2 else acc) none

/-- Python `value.get(key, default)`: only a dict has `.get`; on any other
value an `AttributeError` is raised (and `run_analysis` does not catch it). -/
def pyDictGet (v : JVal) (key : String) (dflt : JVal) : Except String JVal :=
  match v with
  | .jobj fields => .ok ((jsonLookup fields key).getD dflt)
  | _ => .error "AttributeError: object has no attribute get"

/-- Numeric coercion performed by Python's `-` operator on the left operand:
numbers are themselves, bools are 0/1 (`bool` is an `int` subclass), and any
other type raises a `TypeError` (uncaught in `run_analysis`). -/
def coerceNum (v : JVal) : Except String ℚ :=
  match v with
  | .jnum q => .ok q
  | .jbool b => .ok (if b then 1 else 0)
  | _ => .error "TypeError: unsupported operand type(s) for -"

/-- Round half to even, as Python's float formatting does (the formatting is
modelled over exact rationals; no claim depends on this field). -/
def roundEven (x : ℚ) : ℤ :=
  let f : ℤ := ⌊x⌋
  if x - f < 1/2 then f else if 1/2 < x - f then f + 1
  else if f % 2 = 0 then f else f + 1

/-- `f"{x:+.1f}"`: explicit sign, one decimal digit. -/
def fmtSignedTenth (x : ℚ) : String :=
  let sgn := if x < 0 then "-" else "+"
  let t : ℤ := roundEven (|x| * 10)
  sgn ++ toString (t / 10) ++ "." ++ toString (t % 10)

/-- The `edge_percent` field: `f"{edge*100:+.1f}%"`. -/
def fmtEdgePercent (edge : ℚ) : String := fmtSignedTenth (edge * 100) ++ "%"

/-- The loop body of `run_analysis` for one market: build the query, fetch
news, obtain the estimate, and assemble the row.  The two `Except` steps are
the uncaught `AttributeError`/`TypeError` a non-dict or non-numeric model
answer raises in the source. -/
def analyzeMarket (w : World) (m : Market) : Except String AnalysisResult :=
  let query := m.title.getD "" ++ " " ++ m.subtitle.getD ""
  let sources := search_news w.newsApiKey (w.newsApi query) (w.rss query)
  let analysis := analyze_event w.model m sources
  let market_price : ℚ := (m.yes_bid.getD 50 : ℚ) / 100
  do
    let estVal ← pyDictGet analysis "estimated_probability" (.jnum (1/2))
    let estimated_prob ← coerceNum estVal
    let edge := estimated_prob - market_price
    let confidence ← pyDictGet analysis "confidence" (.jstr "LOW")
    let reasoning ← pyDictGet analysis "reasoning" (.jstr "")
    pure ⟨m.ticker.getD "N/A", m.title.getD "N/A", market_price, estimated_prob, edge,
      fmtEdgePercent edge, confidence, recommendation confidence edge, reasoning,
      sources.length⟩

/-- The sequential `for market in markets` loop: one row per market, an
uncaught exception aborting the whole run. -/
def analyzeList (w : World) : List Market → Except String (List AnalysisResult)
  | [] => .ok []
  | m :: ms => do
    let r ← analyzeMarket w m
    let rs ← analyzeList w ms
    pure (r :: rs)

/-- `run_analysis(max_events)`: fetch the open markets, keep the first
`max_events`, and analyze them in order. -/
def run_analysis (w : World) (max_events : Nat) : Except String (List AnalysisResult) :=
  analyzeList w ((get_active_markets w.marketResp).take max_events)

/-! ### The spec's recommendation rule table (§4.4), for the refinement claim

These two definitions follow the spec's words, not the source: a list of
(predicate, label) rules evaluated by first-match priority, defaulting to
HOLD.  Claim C1 compares the source's `elif` chain against them. -/

/-- The five rules of §4.4 in the spec's order. -/
def specRules : List ((String → ℚ → Bool) × String) :=
  [(fun c e => c == "HIGH" && decide (e > 0.10), "STRONG_BUY"),
   (fun c e => c == "HIGH" && decide (e > 0.05), "BUY"),
   (fun c e => c == "HIGH" && decide (e < -0.10), "STRONG_SELL"),
   (fun _ e => decide (e > 0.15), "BUY"),
   (fun _ e => decide (e < -0.15), "SELL")]

/-- First-match evaluation of a rule table; no rule matching gives HOLD. -/
def firstMatchRec : List ((String → ℚ → Bool) × String) → String → ℚ → String
  | [], _, _ => "HOLD"
  | (p, lbl) :: rest, c, e => if p c e then lbl else firstMatchRec rest c e

/-! ### Auxiliary predicates and concrete instances used by the claims -/

/-- An estimate dict that `run_analysis` can consume without raising: a JSON
object whose `estimated_probability` (after the `.get` default) is numeric.
The fallback dict always satisfies this. -/
def usableEstimate (v : JVal) : Bool :=
  match v with
  | .jobj fields =>
    match coerceNum ((jsonLookup fields "estimated_probability").getD (.jnum (1/2))) with
    | .ok _ => true
    | .error _ => false
  | _ => false

/-- A market object with every field absent. -/
def mBlank : Market := ⟨none, none, none, none⟩

/-- A world with one blank market, no news credential, failing news
providers, and a model connection that raises. -/
def wErrModel : World :=
  ⟨.ok (200, some [mBlank]), none, fun _ => .error (), fun _ => .error (),
    fun _ => .error "connection reset"⟩

/-- The result list `run_analysis` produces in `wErrModel`. -/
def rsErrModel : List AnalysisResult := (run_analysis wErrModel 1).toOption.getD []

/-- The single row of `rsErrModel`. -/
def rowErrModel : AnalysisResult := rsErrModel.headD default

/-- A world whose model answers with a JSON array: valid JSON, but not a
dict, so `run_analysis` raises `AttributeError` on `.get`. -/
def wArrayModel : World :=
  ⟨.ok (200, some [mBlank]), none, fun _ => .error (), fun _ => .error (),
    fun _ => .ok "[1, 2]"⟩

/-- A world whose model answers with a valid JSON object that misses the
`confidence` and `reasoning` keys. -/
def wMissingKeys : World :=
  ⟨.ok (200, some [mBlank]), none, fun _ => .error (), fun _ => .error (),
    fun _ => .ok "\x7b\"estimated_probability\": 0.7\x7d"⟩

/-- A well-formed three-key model answer, used as the parsed-JSON witness. -/
def jGood : String :=
  "\x7b\"estimated_probability\": 0.7, \"confidence\": \"HIGH\", \"reasoning\": \"ok\"\x7d"

/-- The member list `json.loads` produces for `jGood`. -/
def jGoodFields : List (String × JVal) :=
  [("estimated_probability", .jnum (7/10)), ("confidence", .jstr "HIGH"),
    ("reasoning", .jstr "ok")]

/-- A fallback-feed outcome with three items, the first with a title and
link, the second empty, the third with only a title. -/
def fbThree : Except Unit (Nat × List RssItem) :=
  .ok (200, [⟨some "a", some "u"⟩, ⟨none, none⟩, ⟨some "b", none⟩])

/-! ## Claims -/

/-- C1: the recommendation is chosen by first-match priority over the fixed
rule table, in the spec's exact order, and the six concrete classifications
hold: with HIGH confidence 0.12 ↦ STRONG_BUY, 0.07 ↦ BUY, −0.12 ↦
STRONG_SELL; with LOW confidence 0.20 ↦ BUY, −0.20 ↦ SELL, 0.0 ↦ HOLD. -/
theorem recommendation_matches_rule_table :
    (∀ (c : String) (e : ℚ), recommendation (.jstr c) e = firstMatchRec specRules c e) ∧
    recommendation (.jstr "HIGH") 0.12 = "STRONG_BUY" ∧
    recommendation (.jstr "HIGH") 0.07 = "BUY" ∧
    recommendation (.jstr "HIGH") (-0.12) = "STRONG_SELL" ∧
    recommendation (.jstr "LOW") 0.20 = "BUY" ∧
    recommendation (.jstr "LOW") (-0.20) = "SELL" ∧
    recommendation (.jstr "LOW") 0 = "HOLD" := by
  have conc : ∀ (c : String) (e : ℚ), recommendation (.jstr c) e = firstMatchRec specRules c e := by
    intro c e
    simp only [recommendation, firstMatchRec, specRules, jsonEqStr, Bool.and_eq_true,
      decide_eq_true_eq, beq_iff_eq]
  refine ⟨conc, ?_, ?_, ?_, ?_, ?_, ?_⟩ <;>
    · simp only [recommendation, jsonEqStr]
      norm_num <;> decide

/-- C4 counterexample: with HIGH confidence and edge −0.12 — strictly
between −0.15 and −0.10 — the source's third rule (`edge < -0.10`) matches
and yields STRONG_SELL, not HOLD as the claim asserts. -/
theorem high_conf_negative_band_not_hold :
    recommendation (.jstr "HIGH") (-0.12) = "STRONG_SELL" ∧
    recommendation (.jstr "HIGH") (-0.12) ≠ "HOLD" := by
  constructor <;>
    · simp only [recommendation, jsonEqStr]
      norm_num <;> decide

/-- C4 amended: with HIGH confidence and edge strictly between −0.15 and
−0.10, rule 3 of the table matches, so the classification is STRONG_SELL
(there is no fall-through gap in this band). -/
theorem high_conf_negative_band_strong_sell (e : ℚ)
    (h1 : -0.15 < e) (h2 : e < -0.10) :
    recommendation (.jstr "HIGH") e = "STRONG_SELL" := by
  have hlt : e < (0.05 : ℚ) := by linarith
  have hlt2 : e < (0.10 : ℚ) := by linarith
  simp only [recommendation, jsonEqStr]
  have b1 : decide (e > (0.10 : ℚ)) = false := by simp; linarith
  have b2 : decide (e > (0.05 : ℚ)) = false := by simp; linarith
  have b3 : decide (e < (-0.10 : ℚ)) = true := by simp [h2]
  simp [b1, b2, b3]

/-- Witness for the C4 amended theorem at edge −0.12. -/
theorem high_conf_negative_band_strong_sell_witness :
    recommendation (.jstr "HIGH") (-0.12) = "STRONG_SELL" :=
  high_conf_negative_band_strong_sell (-0.12) (by norm_num) (by norm_num)

/-- C5: `search_news` never returns more than five sources, whatever the
providers produced (totality — "never throws" — is the return type itself:
both provider steps are consumed as outcome values and every branch yields a
list). -/
theorem search_news_at_most_five (key : Option String)
    (prim : Except Unit (Nat × List Article)) (fb : Except Unit (Nat × List RssItem)) :
    (search_news key prim fb).length ≤ 5 := by
  have hp : (primary_sources key prim).length ≤ 5 := by
    unfold primary_sources
    rcases key with _ | k
    · simp
    · rcases prim with e | ⟨status, articles⟩
      · simp
      · by_cases h : status = 200 <;> simp [h]
  have hf : ∀ r, (fallback_sources r).length ≤ 5 := by
    intro r
    unfold fallback_sources
    rcases r with e | ⟨status, items⟩
    · simp
    · by_cases h : status = 200 <;> simp [h]
  unfold search_news
  by_cases h : (primary_sources key prim).isEmpty
  · simp only [h, if_pos]
    rw [List.isEmpty_iff] at h
    simpa [h] using hf fb
  · simpa [h] using hp

/-- Witness for C5 with a primary provider returning seven articles. -/
theorem search_news_at_most_five_witness :
    (search_news (some "k")
      (.ok (200, [⟨some "a", none, none, none⟩, ⟨some "b", none, none, none⟩,
        ⟨some "c", none, none, none⟩, ⟨some "d", none, none, none⟩,
        ⟨some "e", none, none, none⟩, ⟨some "f", none, none, none⟩,
        ⟨some "g", none, none, none⟩]))
      (.error ())).length ≤ 5 :=
  search_news_at_most_five (some "k") _ _

/-- C7: `get_active_markets` returns the empty list on any raised transport
exception and on any non-200 response; an empty market list is an ordinary
value, not an error. -/
theorem get_active_markets_empty_on_failure :
    (∀ e, get_active_markets (.error e) = []) ∧
    (∀ status body, status ≠ 200 → get_active_markets (.ok (status, body)) = []) := by
  refine ⟨fun e => rfl, fun status body h => ?_⟩
  simp [get_active_markets, h]

/-- Witness for C7 at a raised exception and at HTTP 503. -/
theorem get_active_markets_empty_on_failure_witness :
    get_active_markets (.error ()) = [] ∧
    get_active_markets (.ok (503, some [⟨some "T", none, none, none⟩])) = [] :=
  ⟨get_active_markets_empty_on_failure.1 (),
   get_active_markets_empty_on_failure.2 503 (some [⟨some "T", none, none, none⟩])
    (by norm_num)⟩

/-! ### Helper lemmas about the orchestrator loop -/

/-- A successful loop body stores `edge` as exactly the difference of the two
fields beside it, and prices the market at the defaulted `yes_bid` percent. -/
theorem analyzeMarket_ok_fields (w : World) (m : Market) (r : AnalysisResult)
    (h : analyzeMarket w m = .ok r) :
    r.edge = r.estimated_probability - r.market_price ∧
    r.market_price = (m.yes_bid.getD 50 : ℚ) / 100 := by
  simp only [analyzeMarket, bind, Except.bind] at h
  split at h
  · exact absurd h (by simp)
  · split at h
    · exact absurd h (by simp)
    · split at h
      · exact absurd h (by simp)
      · split at h
        · exact absurd h (by simp)
        · simp only [pure, Except.pure, Except.ok.injEq] at h
          subst h
          simp

/-- A successful run over `m :: ms` decomposes into a successful body run
on `m` and a successful run over `ms`. -/
theorem analyzeList_cons (w : World) (m : Market) (ms : List Market)
    (rs : List AnalysisResult) (h : analyzeList w (m :: ms) = .ok rs) :
    ∃ r rs', analyzeMarket w m = .ok r ∧ analyzeList w ms = .ok rs' ∧ rs = r :: rs' := by
  cases h1 : analyzeMarket w m with
  | error e => simp [analyzeList, h1, bind, Except.bind, Functor.map, Except.map] at h
  | ok r =>
    cases h2 : analyzeList w ms with
    | error e => simp [analyzeList, h1, h2, bind, Except.bind, Functor.map, Except.map] at h
    | ok rs' =>
      refine ⟨r, rs', rfl, rfl, ?_⟩
      simp only [analyzeList, h1, h2, bind, Except.bind, pure, Except.pure,
        Functor.map, Except.map, Except.ok.injEq] at h
      exact h.symm

/-- A successful run yields one row per market, the `i`-th row coming from
the `i`-th market. -/
theorem analyzeList_shape (w : World) :
    ∀ (ms : List Market) (rs : List AnalysisResult), analyzeList w ms = .ok rs →
      rs.length = ms.length ∧
      ∀ (i : Nat) (h1 : i < ms.length) (h2 : i < rs.length),
        analyzeMarket w (ms.get ⟨i, h1⟩) = .ok (rs.get ⟨i, h2⟩)
  | [], rs, h => by
    simp only [analyzeList, Except.ok.injEq] at h
    subst h
    exact ⟨rfl, fun i h1 _ => absurd h1 (by simp)⟩
  | m :: ms, rs, h => by
    obtain ⟨r, rs', h1, h2, h3⟩ := analyzeList_cons w m ms rs h
    obtain ⟨hlen, hget⟩ := analyzeList_shape w ms rs' h2
    subst h3
    refine ⟨by simp [hlen], fun i hh1 hh2 => ?_⟩
    cases i with
    | zero => simpa using h1
    | succ j => simpa using hget j (by simpa using hh1) (by simpa using hh2)

/-- If the model's every answer survives `run_analysis`'s `.get` and
subtraction, the loop body always succeeds. -/
theorem analyzeMarket_ok_of_usable (w : World) (m : Market)
    (H : ∀ p, usableEstimate (parseModelResponse (w.model p)) = true) :
    ∃ r, analyzeMarket w m = .ok r := by
  have hu : usableEstimate (analyze_event w.model m
      (search_news w.newsApiKey
        (w.newsApi (m.title.getD "" ++ " " ++ m.subtitle.getD ""))
        (w.rss (m.title.getD "" ++ " " ++ m.subtitle.getD "")))) = true := H _
  unfold usableEstimate at hu
  split at hu
  next fields heq =>
    split at hu
    next q hnum =>
      cases hX : analyzeMarket w m with
      | ok r => exact ⟨r, rfl⟩
      | error e =>
        simp only [analyzeMarket, heq, pyDictGet, hnum, bind, Except.bind, pure,
          Except.pure] at hX
        exact absurd hX (by simp)
    next e hnum => exact absurd hu (by simp)
  next hne => exact absurd hu (by simp)

/-- Under the same model hypothesis the whole loop succeeds with one row per
market. -/
theorem analyzeList_ok_of_usable (w : World)
    (H : ∀ p, usableEstimate (parseModelResponse (w.model p)) = true) :
    ∀ ms, ∃ rs, analyzeList w ms = .ok rs ∧ rs.length = ms.length
  | [] => ⟨[], rfl, rfl⟩
  | m :: ms => by
    obtain ⟨r, hr⟩ := analyzeMarket_ok_of_usable w m H
    obtain ⟨rs, hrs, hlen⟩ := analyzeList_ok_of_usable w H ms
    exact ⟨r :: rs,
      by simp [analyzeList, hr, hrs, bind, Except.bind, pure, Except.pure],
      by simp [hlen]⟩

/-- C2: every row of a successful `run_analysis` satisfies
`edge = estimated_probability − market_price` exactly. -/
theorem edge_is_probability_minus_price (w : World) (max_events : Nat)
    (rs : List AnalysisResult) (r : AnalysisResult)
    (hrun : run_analysis w max_events = .ok rs) (hmem : r ∈ rs) :
    r.edge = r.estimated_probability - r.market_price := by
  unfold run_analysis at hrun
  obtain ⟨hlen, hget⟩ := analyzeList_shape w _ rs hrun
  obtain ⟨n, hn⟩ := List.mem_iff_get.mp hmem
  have hm := hget n.1 (by have := n.isLt; omega) n.2
  rw [show rs.get ⟨n.1, n.2⟩ = r from hn] at hm
  exact (analyzeMarket_ok_fields w _ r hm).1

/-- Witness for C2 in the laboratory world: the one produced row satisfies
the invariant. -/
theorem edge_is_probability_minus_price_witness :
    rowErrModel.edge = rowErrModel.estimated_probability - rowErrModel.market_price :=
  edge_is_probability_minus_price wErrModel 1 rsErrModel rowErrModel (by rfl)
    (by rw [show rsErrModel = [rowErrModel] from rfl]; exact List.mem_singleton_self _)

/-- C3 counterexample: a model answer that is valid JSON but misses the
`confidence` and `reasoning` keys is returned as parsed — not replaced by the
fallback Estimate `{0.5, LOW, "Error: …"}` the claim requires (the returned
dict has probability 0.7 and no confidence or reasoning binding at all). -/
theorem missing_key_response_kept :
    analyze_event (fun _ => .ok "\x7b\"estimated_probability\": 0.7\x7d") mBlank [] =
      .jobj [("estimated_probability", .jnum (7/10))] ∧
    jsonLookup [(("estimated_probability" : String), JVal.jnum (7/10))] "confidence" = none ∧
    jsonLookup [(("estimated_probability" : String), JVal.jnum (7/10))] "reasoning" = none := by
  refine ⟨?_, rfl, rfl⟩
  with_unfolding_all rfl

/-- C3 amended: the estimator is total (its type returns a plain `JVal`), and
on a raised exception or a response whose fence-stripped text fails JSON
parsing it returns exactly the fallback dict `{0.5, "LOW", "Error: <msg>"}`;
a response that parses, however, is returned as is, its keys unchecked. -/
theorem estimator_fallback_on_failure (m : Market) (sources : List NewsSource)
    (resp : Except String String)
    (hfail : match resp with
      | .error _ => True
      | .ok t => loadsValue (processText t) = none) :
    ∃ msg, analyze_event (fun _ => resp) m sources =
      .jobj [("estimated_probability", .jnum (1/2)), ("confidence", .jstr "LOW"),
        ("reasoning", .jstr ("Error: " ++ msg))] := by
  cases resp with
  | error e => exact ⟨e, rfl⟩
  | ok t =>
    exact ⟨jsonDecodeMsg, by
      simp only [analyze_event, parseModelResponse, hfail, fallbackEstimate]⟩

/-- Witness for C3 (amended) on the unparsable response `"not json"`. -/
theorem estimator_fallback_on_failure_witness :
    ∃ msg, analyze_event (fun _ => .ok "not json") mBlank [] =
      .jobj [("estimated_probability", .jnum (1/2)), ("confidence", .jstr "LOW"),
        ("reasoning", .jstr ("Error: " ++ msg))] :=
  estimator_fallback_on_failure mBlank [] (.ok "not json") (by with_unfolding_all rfl)

/-- C6: when the primary step yields nothing the result is exactly the
fallback step's sources — at most five, each with an empty description — and
when the primary step yields at least one source the fallback outcome is
never consulted. -/
theorem fallback_only_when_primary_empty (key : Option String)
    (prim : Except Unit (Nat × List Article)) (fb : Except Unit (Nat × List RssItem)) :
    (primary_sources key prim = [] →
      search_news key prim fb = fallback_sources fb ∧
      (fallback_sources fb).length ≤ 5 ∧
      ∀ s ∈ fallback_sources fb, s.description = "") ∧
    (primary_sources key prim ≠ [] → search_news key prim fb = primary_sources key prim) := by
  constructor
  · intro h
    refine ⟨by simp [search_news, h], ?_, ?_⟩
    · unfold fallback_sources
      rcases fb with e | ⟨status, items⟩
      · simp
      · by_cases hs : status = 200 <;> simp [hs]
    · intro s hs
      rcases fb with e | ⟨status, items⟩
      · simp [fallback_sources] at hs
      · by_cases h2 : status = 200
        · simp [fallback_sources, h2] at hs
          have hs2 : s ∈ List.map itemSource items := List.mem_of_mem_take hs
          rw [List.mem_map] at hs2
          obtain ⟨it, _, hmap⟩ := hs2
          rw [← hmap]
          rfl
        · simp [fallback_sources, h2] at hs
  · intro h
    simp [search_news, List.isEmpty_iff, h]

/-- Witness for C6: primary unconfigured and a three-item fallback feed give
exactly three sources, every description empty. -/
theorem fallback_only_when_primary_empty_witness :
    search_news none (.error ()) fbThree = fallback_sources fbThree ∧
    (fallback_sources fbThree).length = 3 ∧
    (fallback_sources fbThree).map (fun s => s.description) = ["", "", ""] :=
  ⟨((fallback_only_when_primary_empty none (.error ()) fbThree).1 rfl).1,
    by with_unfolding_all rfl, by with_unfolding_all rfl⟩

/-- C8 counterexample: the model answers `[1, 2]` — valid JSON, so the
estimator hands it through — and the uncaught `AttributeError` from
`analysis.get` aborts the whole run even though the market source delivered
one market; the claim's "exactly one result per market" fails. -/
theorem array_response_aborts_run :
    run_analysis wArrayModel 1 = .error "AttributeError: object has no attribute get" ∧
    ((get_active_markets wArrayModel.marketResp).take 1).length = 1 := by
  constructor <;> with_unfolding_all rfl

/-- C8 amended: as long as every model answer is consumable by the loop — it
is an exception (absorbed into the fallback), fails to parse (ditto), or
parses to a JSON dict whose defaulted `estimated_probability` is numeric —
`run_analysis` returns exactly one result per market taken, no market being
skipped; but a model answer parsing to a non-dict, or to a dict with a
non-numeric `estimated_probability`, raises an uncaught
`AttributeError`/`TypeError` that aborts the whole batch. -/
theorem run_yields_one_row_per_market (w : World) (max_events : Nat)
    (H : ∀ p, usableEstimate (parseModelResponse (w.model p)) = true) :
    ∃ rs, run_analysis w max_events = .ok rs ∧
      rs.length = ((get_active_markets w.marketResp).take max_events).length := by
  unfold run_analysis
  exact analyzeList_ok_of_usable w H _

/-- Witness for C8 (amended) with a raising model connection. -/
theorem run_yields_one_row_per_market_witness :
    ∃ rs, run_analysis wErrModel 3 = .ok rs ∧
      rs.length = ((get_active_markets wErrModel.marketResp).take 3).length :=
  run_yields_one_row_per_market wErrModel 3 (fun _ => by with_unfolding_all rfl)

/-- C10: a market without a `yes_bid` field is priced at 0.5 — the row's
`market_price` is 1/2 and its `edge` is `estimated_probability − 1/2` — and
the prompt sent to the model renders the price as `50%`. -/
theorem missing_yes_bid_prices_at_half :
    (∀ (w : World) (max_events : Nat) (rs : List AnalysisResult) (i : Nat)
      (hrun : run_analysis w max_events = .ok rs)
      (h1 : i < ((get_active_markets w.marketResp).take max_events).length)
      (h2 : i < rs.length),
      (((get_active_markets w.marketResp).take max_events).get ⟨i, h1⟩).yes_bid = none →
        (rs.get ⟨i, h2⟩).market_price = 1/2 ∧
        (rs.get ⟨i, h2⟩).edge = (rs.get ⟨i, h2⟩).estimated_probability - 1/2) ∧
    (∀ (m : Market) (sources : List NewsSource), m.yes_bid = none →
      "Current Market Price: 50%".data <:+: (buildPrompt m sources).data) := by
  constructor
  · intro w max_events rs i hrun h1 h2 hb
    unfold run_analysis at hrun
    obtain ⟨hlen, hget⟩ := analyzeList_shape w _ rs hrun
    have hm := hget i h1 h2
    obtain ⟨hedge, hprice⟩ := analyzeMarket_ok_fields w _ _ hm
    rw [hb] at hprice
    norm_num at hprice
    constructor
    · simpa using hprice
    · rw [hedge]
      simp only [List.get_eq_getElem]
      rw [hprice]
  · intro m sources hb
    have hA : "Current Market Price: 50%".data <:+:
        "\nCurrent Market Price: 50%\n\nRecent Sources:\n".data :=
      ⟨['\n'], "\n\nRecent Sources:\n".data, by with_unfolding_all rfl⟩
    have hB : "\nCurrent Market Price: 50%\n\nRecent Sources:\n".data <:+:
        (buildPrompt m sources).data := by
      refine ⟨("Event: " ++ m.title.getD "N/A" ++ "\nTicker: " ++ m.ticker.getD "N/A").data,
        (promptLines sources ++ instrBlock).data, ?_⟩
      have h50 : (toString ((50 : ℤ))).data = ['5', '0'] := by with_unfolding_all rfl
      simp only [buildPrompt, buildContext, hb, Option.getD_none, h50,
        String.data_append, List.append_assoc, List.cons_append, List.nil_append]
    exact hA.trans hB

/-- Witness for C10 in the laboratory world, whose one market has no
`yes_bid`: the produced row is priced at one half. -/
theorem missing_yes_bid_prices_at_half_witness :
    rowErrModel.market_price = 1/2 ∧
    rowErrModel.edge = rowErrModel.estimated_probability - 1/2 := by
  have hlen1 : ((get_active_markets wErrModel.marketResp).take 1).length = 1 := by
    with_unfolding_all rfl
  have hlen2 : rsErrModel.length = 1 := by with_unfolding_all rfl
  have hpos1 : 0 < ((get_active_markets wErrModel.marketResp).take 1).length := by omega
  have hpos2 : 0 < rsErrModel.length := by omega
  have hbid : (((get_active_markets wErrModel.marketResp).take 1).get ⟨0, hpos1⟩).yes_bid =
      none := by with_unfolding_all rfl
  have h := missing_yes_bid_prices_at_half.1 wErrModel 1 rsErrModel 0 rfl hpos1 hpos2 hbid
  have hrow : rowErrModel = rsErrModel.get ⟨0, hpos2⟩ := by with_unfolding_all rfl
  rw [hrow]
  exact h

/-! ### String-primitive lemmas for the fence-stripping claim C9 -/

/-- JSON whitespace is also Python `strip` whitespace. -/
theorem pySpace_of_jsonSpace (c : Char) (h : jsonSpace c = true) : pySpace c = true := by
  simp only [jsonSpace, Bool.or_eq_true, beq_iff_eq] at h
  rcases h with ((h | h) | h) | h <;> subst h <;> rfl

/-- `pyStrip` fixes a list whose first and last characters are not
whitespace. -/
theorem pyStrip_eq_self (l : List Char)
    (h1 : ∀ c, l.head? = some c → pySpace c = false)
    (h2 : ∀ c, l.reverse.head? = some c → pySpace c = false) : pyStrip l = l := by
  unfold pyStrip
  have d1 : l.dropWhile pySpace = l := by
    cases l with
    | nil => rfl
    | cons c cs => simp [List.dropWhile_cons, h1 c rfl]
  rw [d1]
  have d2 : l.reverse.dropWhile pySpace = l.reverse := by
    cases hr : l.reverse with
    | nil => rfl
    | cons c cs =>
      have hc := h2 c (by rw [hr]; rfl)
      simp [List.dropWhile_cons, hc]
  rw [d2, List.reverse_reverse]

/-- `pyStrip` drops surrounding all-whitespace blocks. -/
theorem pyStrip_pad (wsL Z W : List Char) (h1 : ∀ c ∈ wsL, pySpace c = true)
    (h2 : ∀ c ∈ W, pySpace c = true) : pyStrip (wsL ++ Z ++ W) = pyStrip Z := by
  have hw1 : wsL.dropWhile pySpace = [] := List.dropWhile_eq_nil_iff.mpr h1
  have hw2 : W.dropWhile pySpace = [] := List.dropWhile_eq_nil_iff.mpr h2
  have hw2r : W.reverse.dropWhile pySpace = [] :=
    List.dropWhile_eq_nil_iff.mpr (by intro c hc; exact h2 c (by simpa using hc))
  unfold pyStrip
  rw [List.append_assoc, List.dropWhile_append, hw1]
  simp only [List.isEmpty_nil, if_true]
  rw [List.dropWhile_append, hw2]
  by_cases hz : (Z.dropWhile pySpace).isEmpty = true
  · have hznil : Z.dropWhile pySpace = [] := List.isEmpty_iff.mp hz
    rw [if_pos hz, hznil]
  · rw [if_neg hz, List.reverse_append, List.dropWhile_append, hw2r]
    simp only [List.isEmpty_nil, if_true]

/-- One unfolding of `pyReplace` at a match: the pattern is removed and the
scan resumes after it. -/
theorem pyReplace_head (pat rep y : List Char) (hne : pat ≠ []) :
    pyReplace pat rep (pat ++ y) = rep ++ pyReplace pat rep y := by
  obtain ⟨c, cs, rfl⟩ : ∃ c cs, pat = c :: cs := by
    cases pat with
    | nil => exact absurd rfl hne
    | cons c cs => exact ⟨c, cs, rfl⟩
  show pyReplace (c :: cs) rep (c :: (cs ++ y)) = rep ++ pyReplace (c :: cs) rep y
  rw [pyReplace.eq_2]
  rw [dif_pos ⟨hne, by rw [← List.cons_append]; exact List.prefix_append _ _⟩]
  rw [show c :: (cs ++ y) = (c :: cs) ++ y from rfl, List.drop_left]

/-- `pyReplace` fixes a list in which the pattern never occurs. -/
theorem pyReplace_eq_self (pat rep : List Char) :
    ∀ (l : List Char), (∀ l₂, l₂ <:+ l → l₂ ≠ [] → ¬ pat <+: l₂) →
      pyReplace pat rep l = l
  | [], _ => by simp [pyReplace]
  | c :: cs, h => by
    rw [pyReplace.eq_2, dif_neg]
    · rw [pyReplace_eq_self pat rep cs]
      intro l₂ hsuf hne
      exact h l₂ (hsuf.trans (List.suffix_cons c cs)) hne
    · rintro ⟨-, hpre⟩
      exact h (c :: cs) (List.suffix_refl _) (by simp) hpre

/-- The boundary lemma: replacement distributes over an append when no
occurrence of the pattern spans the boundary (any nonempty suffix of `A`
that starts an occurrence reaching into `B` already contains it whole). -/
theorem pyReplace_append (pat rep : List Char) :
    ∀ (n : Nat) (A B : List Char), A.length ≤ n →
      (∀ A₂, A₂ <:+ A → A₂ ≠ [] → pat <+: A₂ ++ B → pat <+: A₂) →
      pyReplace pat rep (A ++ B) = pyReplace pat rep A ++ pyReplace pat rep B := by
  intro n
  induction n with
  | zero =>
    intro A B hlen _
    have : A = [] := List.eq_nil_of_length_eq_zero (Nat.le_zero.mp hlen)
    subst this
    simp [pyReplace]
  | succ n ih =>
    intro A B hlen hspan
    cases hA : A with
    | nil => simp [pyReplace]
    | cons c cs =>
      subst hA
      by_cases hp : pat ≠ [] ∧ pat <+: (c :: cs) ++ B
      · have hpA : pat <+: c :: cs :=
          hspan (c :: cs) (List.suffix_refl _) (by simp) hp.2

        have hplen : pat.length ≤ (c :: cs).length := hpA.length_le
        have hd : (c :: (cs ++ B)).drop pat.length = ((c :: cs).drop pat.length) ++ B := by
          rw [show c :: (cs ++ B) = (c :: cs) ++ B from rfl,
            List.drop_append_eq_append_drop, Nat.sub_eq_zero_of_le hplen, List.drop_zero]
        have hstep1 : pyReplace pat rep ((c :: cs) ++ B) =
            rep ++ pyReplace pat rep (((c :: cs).drop pat.length) ++ B) := by
          show pyReplace pat rep (c :: (cs ++ B)) = _
          rw [pyReplace.eq_2, dif_pos ⟨hp.1, hp.2⟩, hd]
        have hstep2 : pyReplace pat rep (c :: cs) =
            rep ++ pyReplace pat rep ((c :: cs).drop pat.length) := by
          rw [pyReplace.eq_2, dif_pos ⟨hp.1, hpA⟩]
        rw [hstep1, hstep2]
        have hrec := ih ((c :: cs).drop pat.length) B
          (by
            have h1 : 0 < pat.length := List.length_pos.mpr hp.1
            simp only [List.length_drop, List.length_cons]
            simp only [List.length_cons] at hlen
            omega)
          (fun A₂ hsuf hne hpre =>
            hspan A₂ (hsuf.trans (List.drop_suffix _ _)) hne hpre)
        rw [hrec, List.append_assoc]
      · have hpcs : ¬ (pat ≠ [] ∧ pat <+: (c :: cs)) := by
          rintro ⟨hne, hpre⟩
          exact hp ⟨hne, hpre.trans (List.prefix_append _ _)⟩
        have hstep1 : pyReplace pat rep ((c :: cs) ++ B) =
            c :: pyReplace pat rep (cs ++ B) := by
          show pyReplace pat rep (c :: (cs ++ B)) = _
          rw [pyReplace.eq_2, dif_neg (by simpa using hp)]
        have hstep2 : pyReplace pat rep (c :: cs) = c :: pyReplace pat rep cs := by
          rw [pyReplace.eq_2, dif_neg hpcs]
        rw [hstep1, hstep2]
        have hrec := ih cs B
          (by simp only [List.length_cons] at hlen; omega)
          (fun A₂ hsuf hne hpre =>
            hspan A₂ (hsuf.trans (List.suffix_cons c cs)) hne hpre)
        rw [hrec]
        rfl

/-- The head of a list extends to any list it is a prefix of. -/
theorem head_eq_of_prefix (l₁ l₂ : List Char) (h : l₁ <+: l₂) (hne : l₁ ≠ []) :
    l₂.head? = l₁.head? := by
  obtain ⟨t, rfl⟩ := h
  cases l₁ with
  | nil => exact absurd rfl hne
  | cons c cs => rfl

/-- A pattern longer than the whole list never occurs in it. -/
theorem pyReplace_short_eq_self (pat rep l : List Char) (h : l.length < pat.length) :
    pyReplace pat rep l = l := by
  refine pyReplace_eq_self pat rep l (fun l₂ hsuf hne hpre => ?_)
  have h1 := hsuf.length_le
  have h2 := hpre.length_le
  omega

/-- No occurrence of a pattern with a non-whitespace first character can
start inside an all-whitespace block. -/
theorem no_span_of_ws (pat : List Char) (c0 : Char) (hc0 : pat.head? = some c0)
    (hc0ws : pySpace c0 = false) (A B : List Char) (hA : ∀ c ∈ A, pySpace c = true) :
    ∀ A₂, A₂ <:+ A → A₂ ≠ [] → pat <+: A₂ ++ B → pat <+: A₂ := by
  intro A₂ hsuf hne hpre
  exfalso
  obtain ⟨a, as, rfl⟩ : ∃ a as, A₂ = a :: as := by
    cases A₂ with
    | nil => exact absurd rfl hne
    | cons a as => exact ⟨a, as, rfl⟩
  have hhead := head_eq_of_prefix pat ((a :: as) ++ B) hpre (by
    intro hp0; rw [hp0] at hc0; exact Option.noConfusion hc0)
  rw [hc0] at hhead
  have ha : a = c0 := by simpa using hhead
  have hmem : a ∈ A := List.IsSuffix.mem (by simp) hsuf
  rw [ha] at hmem
  rw [hA c0 hmem] at hc0ws
  exact Bool.noConfusion hc0ws

/-- Ditto: `pyReplace` fixes an all-whitespace block for such a pattern. -/
theorem pyReplace_ws_eq_self (pat rep : List Char) (c0 : Char) (hc0 : pat.head? = some c0)
    (hc0ws : pySpace c0 = false) (A : List Char) (hA : ∀ c ∈ A, pySpace c = true) :
    pyReplace pat rep A = A := by
  refine pyReplace_eq_self pat rep A (fun l₂ hsuf hne hpre => ?_)
  obtain ⟨a, as, rfl⟩ : ∃ a as, l₂ = a :: as := by
    cases l₂ with
    | nil => exact absurd rfl hne
    | cons a as => exact ⟨a, as, rfl⟩
  have hhead := head_eq_of_prefix pat (a :: as) hpre (by
    intro hp0; rw [hp0] at hc0; exact Option.noConfusion hc0)
  rw [hc0] at hhead
  have ha : a = c0 := by simpa using hhead
  have hmem : a ∈ A := List.IsSuffix.mem (by simp) hsuf
  rw [ha] at hmem
  rw [hA c0 hmem] at hc0ws
  exact Bool.noConfusion hc0ws

/-- If the remainder of the long fence marker after `n` of its characters
starts with a whitespace character, then `n` is 7 (only its final newline is
whitespace). -/
theorem fence_drop_head_ws (n : Nat) (h1 : 1 ≤ n) (h2 : n < 8) (c : Char)
    (hc : (fencePat.drop n).head? = some c) (hws : pySpace c = true) : n = 7 := by
  interval_cases n
  · rw [show (fencePat.drop 1).head? = some (Char.ofNat 96) from by with_unfolding_all rfl] at hc
    injection hc with hcc
    subst hcc
    exact Bool.noConfusion ((by with_unfolding_all rfl : pySpace (Char.ofNat 96) = false).symm.trans hws)
  · rw [show (fencePat.drop 2).head? = some (Char.ofNat 96) from by with_unfolding_all rfl] at hc
    injection hc with hcc
    subst hcc
    exact Bool.noConfusion ((by with_unfolding_all rfl : pySpace (Char.ofNat 96) = false).symm.trans hws)
  · rw [show (fencePat.drop 3).head? = some 'j' from by with_unfolding_all rfl] at hc
    injection hc with hcc
    subst hcc
    exact Bool.noConfusion ((rfl : pySpace 'j' = false).symm.trans hws)
  · rw [show (fencePat.drop 4).head? = some 's' from by with_unfolding_all rfl] at hc
    injection hc with hcc
    subst hcc
    exact Bool.noConfusion ((rfl : pySpace 's' = false).symm.trans hws)
  · rw [show (fencePat.drop 5).head? = some 'o' from by with_unfolding_all rfl] at hc
    injection hc with hcc
    subst hcc
    exact Bool.noConfusion ((rfl : pySpace 'o' = false).symm.trans hws)
  · rw [show (fencePat.drop 6).head? = some 'n' from by with_unfolding_all rfl] at hc
    injection hc with hcc
    subst hcc
    exact Bool.noConfusion ((rfl : pySpace 'n' = false).symm.trans hws)
  · rfl

/-- Every proper nonempty remainder of the short fence marker starts with a
backtick, never whitespace. -/
theorem tick_drop_head_ws (n : Nat) (h1 : 1 ≤ n) (h2 : n < 3) (c : Char)
    (hc : (tickPat.drop n).head? = some c) (hws : pySpace c = true) : False := by
  interval_cases n
  · rw [show (tickPat.drop 1).head? = some (Char.ofNat 96) from by with_unfolding_all rfl] at hc
    injection hc with hcc
    subst hcc
    exact Bool.noConfusion ((by with_unfolding_all rfl : pySpace (Char.ofNat 96) = false).symm.trans hws)
  · rw [show (tickPat.drop 2).head? = some (Char.ofNat 96) from by with_unfolding_all rfl] at hc
    injection hc with hcc
    subst hcc
    exact Bool.noConfusion ((by with_unfolding_all rfl : pySpace (Char.ofNat 96) = false).symm.trans hws)

/-- The common core of the boundary dischargers: from an occurrence of `pat`
spanning the `A₂`/`B` boundary, the remainder of `pat` after `A₂` is a
nonempty prefix of `B`, so its head is `B`'s (whitespace) head. -/
theorem span_drop_prefix (pat : List Char) (A₂ B : List Char)
    (hlt : A₂.length < pat.length) (hpre : pat <+: A₂ ++ B) :
    A₂ = pat.take A₂.length ∧ pat.drop A₂.length <+: B := by
  have h1 : pat = (A₂ ++ B).take pat.length := List.prefix_iff_eq_take.mp hpre
  have hA2 : A₂ = pat.take A₂.length := by
    calc A₂ = (A₂ ++ B).take A₂.length := (List.take_left A₂ B).symm
      _ = ((A₂ ++ B).take pat.length).take A₂.length := by
          rw [List.take_take, Nat.min_eq_left (Nat.le_of_lt hlt)]
      _ = pat.take A₂.length := by rw [← h1]
  have hsplit : pat.take A₂.length ++ pat.drop A₂.length <+: pat.take A₂.length ++ B := by
    rw [List.take_append_drop, ← hA2]
    exact hpre
  exact ⟨hA2, (List.prefix_append_right_inj _).mp hsplit⟩

/-- No occurrence of the long fence marker spans out of a block ending in a
closing brace into whitespace-headed text: an occurrence that fits is
entirely inside the block. -/
theorem fence_no_span (X B : List Char)
    (hB : ∀ c, B.head? = some c → pySpace c = true) :
    ∀ A₂, A₂ <:+ X ++ ['\x7d'] → A₂ ≠ [] → fencePat <+: A₂ ++ B → fencePat <+: A₂ := by
  intro A₂ hsuf hne hpre
  by_cases hn : 8 ≤ A₂.length
  · have h1 : fencePat = (A₂ ++ B).take 8 := by
      have := List.prefix_iff_eq_take.mp hpre
      rwa [show fencePat.length = 8 from rfl] at this
    rw [h1, List.take_append_of_le_length hn]
    exact List.take_prefix _ _
  · push_neg at hn
    have hpos : 0 < A₂.length := List.length_pos.mpr hne
    obtain ⟨hA2, hdrop⟩ := span_drop_prefix fencePat A₂ B
      (by rw [show fencePat.length = 8 from rfl]; omega) hpre
    have hdne : fencePat.drop A₂.length ≠ [] := by
      apply List.ne_nil_of_length_pos
      rw [List.length_drop, show fencePat.length = 8 from rfl]
      omega
    have hhead := head_eq_of_prefix _ _ hdrop hdne
    obtain ⟨c, hc⟩ : ∃ c, (fencePat.drop A₂.length).head? = some c := by
      cases hd : (fencePat.drop A₂.length) with
      | nil => exact absurd hd hdne
      | cons c cs => exact ⟨c, rfl⟩
    have hcB : B.head? = some c := by rw [hhead, hc]
    have h7 : A₂.length = 7 :=
      fence_drop_head_ws A₂.length hpos (by omega) c hc (hB c hcB)
    exfalso
    rw [h7] at hA2
    have hrevA : A₂.reverse = 'n' :: "osj```".data := by
      rw [hA2]
      with_unfolding_all rfl
    have hrevSuf : A₂.reverse <+: ('\x7d' :: X.reverse) := by
      have hrp := List.reverse_prefix.mpr hsuf
      rwa [show (X ++ ['\x7d']).reverse = '\x7d' :: X.reverse from by simp] at hrp
    rw [hrevA] at hrevSuf
    have hnb := (List.cons_prefix_cons.mp hrevSuf).1
    exact absurd hnb (by decide)

/-- No occurrence of the short fence marker spans any boundary into
whitespace-headed text. -/
theorem tick_no_span (A B : List Char)
    (hB : ∀ c, B.head? = some c → pySpace c = true) :
    ∀ A₂, A₂ <:+ A → A₂ ≠ [] → tickPat <+: A₂ ++ B → tickPat <+: A₂ := by
  intro A₂ _ hne hpre
  by_cases hn : 3 ≤ A₂.length
  · have h1 : tickPat = (A₂ ++ B).take 3 := by
      have := List.prefix_iff_eq_take.mp hpre
      rwa [show tickPat.length = 3 from rfl] at this
    rw [h1, List.take_append_of_le_length hn]
    exact List.take_prefix _ _
  · push_neg at hn
    have hpos : 0 < A₂.length := List.length_pos.mpr hne
    obtain ⟨hA2, hdrop⟩ := span_drop_prefix tickPat A₂ B
      (by rw [show tickPat.length = 3 from rfl]; omega) hpre
    have hdne : tickPat.drop A₂.length ≠ [] := by
      apply List.ne_nil_of_length_pos
      rw [List.length_drop, show tickPat.length = 3 from rfl]
      omega
    have hhead := head_eq_of_prefix _ _ hdrop hdne
    obtain ⟨c, hc⟩ : ∃ c, (tickPat.drop A₂.length).head? = some c := by
      cases hd : (tickPat.drop A₂.length) with
      | nil => exact absurd hd hdne
      | cons c cs => exact ⟨c, rfl⟩
    have hcB : B.head? = some c := by rw [hhead, hc]
    exact absurd (tick_drop_head_ws A₂.length hpos (by omega) c hc (hB c hcB)) id

/-! ### Consumption lemmas for the parser, towards the shape of a parsed
object (it ends in `\x7d` followed only by whitespace) -/

/-- A suffix stays a suffix under one more leading character. -/
theorem suffix_cons_trans {r l : List Char} (c : Char) (h : r <:+ l) : r <:+ c :: l :=
  h.trans (List.suffix_cons c l)

/-- `strBody` leaves a suffix of its input. -/
theorem strBody_suffix : ∀ (n : Nat) (acc s : List Char) (st : String) (r : List Char),
    s.length ≤ n → strBody acc s = some (st, r) → r <:+ s := by
  intro n
  induction n with
  | zero =>
    intro acc s st r hlen h
    have hnil : s = [] := List.eq_nil_of_length_eq_zero (Nat.le_zero.mp hlen)
    subst hnil
    rw [strBody.eq_def] at h
    exact absurd h (by simp)
  | succ n ih =>
    intro acc s st r hlen h
    rw [strBody.eq_def] at h
    split at h
    · exact absurd h (by simp)
    · simp only [Option.some.injEq, Prod.mk.injEq] at h
      rw [← h.2]
      exact ⟨['"'], rfl⟩
    · split at h
      · have hr := ih _ _ st r (by simp only [List.length_cons] at hlen; omega) h
        exact suffix_cons_trans _ (suffix_cons_trans _ (suffix_cons_trans _
          (suffix_cons_trans _ (suffix_cons_trans _ (suffix_cons_trans _ hr)))))
      · exact absurd h (by simp)
    · split at h
      · have hr := ih _ _ st r (by simp only [List.length_cons] at hlen; omega) h
        exact suffix_cons_trans _ (suffix_cons_trans _ hr)
      · exact absurd h (by simp)
    · split at h
      · exact absurd h (by simp)
      · have hr := ih _ _ st r (by simp only [List.length_cons] at hlen; omega) h
        exact suffix_cons_trans _ hr

/-- `expPart` leaves a suffix of its input. -/
theorem expPart_suffix (s : List Char) (e : Int) (r : List Char)
    (h : expPart s = some (e, r)) : r <:+ s := by
  unfold expPart at h
  split at h
  · rename_i r0
    rcases hp : (match r0 with
      | '+' :: r2 => ((1 : Int), r2)
      | '-' :: r2 => ((-1 : Int), r2)
      | _ => ((1 : Int), r0)) with ⟨sgn, r1⟩
    have hr1 : r1 <:+ r0 := by
      split at hp
      · injection hp with h1 h2
        rw [← h2]
        exact ⟨['+'], rfl⟩
      · injection hp with h1 h2
        rw [← h2]
        exact ⟨['-'], rfl⟩
      · injection hp with h1 h2
        rw [← h2]
    rw [hp] at h
    simp only [] at h
    split at h
    · exact absurd h (by simp)
    · simp only [Option.some.injEq, Prod.mk.injEq] at h
      rw [← h.2]
      exact ((List.dropWhile_suffix _).trans hr1).trans ⟨['e'], rfl⟩
  · rename_i r0
    rcases hp : (match r0 with
      | '+' :: r2 => ((1 : Int), r2)
      | '-' :: r2 => ((-1 : Int), r2)
      | _ => ((1 : Int), r0)) with ⟨sgn, r1⟩
    have hr1 : r1 <:+ r0 := by
      split at hp
      · injection hp with h1 h2
        rw [← h2]
        exact ⟨['+'], rfl⟩
      · injection hp with h1 h2
        rw [← h2]
        exact ⟨['-'], rfl⟩
      · injection hp with h1 h2
        rw [← h2]
    rw [hp] at h
    simp only [] at h
    split at h
    · exact absurd h (by simp)
    · simp only [Option.some.injEq, Prod.mk.injEq] at h
      rw [← h.2]
      exact ((List.dropWhile_suffix _).trans hr1).trans ⟨['E'], rfl⟩
  · simp only [Option.some.injEq, Prod.mk.injEq] at h
    rw [← h.2]

/-- `numToken` leaves a suffix of its input and always yields a number. -/
theorem numToken_props (s : List Char) (v : JVal) (r : List Char)
    (h : numToken s = some (v, r)) : r <:+ s ∧ ∃ q, v = .jnum q := by
  unfold numToken at h
  rcases hp : (match s with
    | '-' :: rr => (true, rr)
    | _ => (false, s)) with ⟨neg, s1⟩
  have hs1 : s1 <:+ s := by
    split at hp
    · injection hp with h1 h2
      rw [← h2]
      exact ⟨['-'], rfl⟩
    · injection hp with h1 h2
      rw [← h2]
  rw [hp] at h
  simp only [] at h
  split at h
  · exact absurd h (by simp)
  · split at h
    · exact absurd h (by simp)
    · split at h
      · exact absurd h (by simp)
      · rename_i fs s3 heqf
        have hs3 : s3 <:+ s1.dropWhile isDig := by
          split at heqf
          · rename_i rf harm
            split at heqf
            · exact absurd heqf (by simp)
            · simp only [Option.some.injEq, Prod.mk.injEq] at heqf
              rw [← heqf.2, harm]
              exact suffix_cons_trans _ (List.dropWhile_suffix _)
          · simp only [Option.some.injEq, Prod.mk.injEq] at heqf
            rw [← heqf.2]
        split at h
        · exact absurd h (by simp)
        · rename_i e0 s4 heqe
          simp only [Option.some.injEq, Prod.mk.injEq] at h
          refine ⟨?_, ⟨_, h.1.symm⟩⟩
          rw [← h.2]
          exact ((expPart_suffix s3 e0 s4 heqe).trans
            (hs3.trans (List.dropWhile_suffix _))).trans hs1

/-- A list is a suffix of anything it rebuilds by a left append. -/
theorem suffix_of_eq_append (t l r0 : List Char) (h : l = t ++ r0) : r0 <:+ l :=
  ⟨t, h.symm⟩

/-- The shape of everything the parser consumes: a parsed value leaves a
suffix of the input; a parsed member list — and hence a parsed object —
consumed text ending in the closing brace. -/
theorem parse_shape : ∀ fuel : Nat,
    (∀ s v r, jValue fuel s = some (v, r) →
      r <:+ s ∧ ∀ f, v = JVal.jobj f → ∃ t, s = t ++ '\x7d' :: r) ∧
    (∀ s f r, jMembers fuel s = some (f, r) → ∃ t, s = t ++ '\x7d' :: r) ∧
    (∀ s xs r, jItems fuel s = some (xs, r) → r <:+ s) := by
  intro fuel
  induction fuel with
  | zero =>
    refine ⟨fun s v r h => ?_, fun s f r h => ?_, fun s xs r h => ?_⟩
    · exact absurd h (by simp [jValue])
    · exact absurd h (by simp [jMembers])
    · exact absurd h (by simp [jItems])
  | succ fuel ih =>
    obtain ⟨ih1, ih2, ih3⟩ := ih
    refine ⟨fun s v r h => ?_, fun s f r h => ?_, fun s xs r h => ?_⟩
    · rw [jValue.eq_2] at h
      have hws : wsDrop s <:+ s := List.dropWhile_suffix _
      have hsw : s.takeWhile jsonSpace ++ wsDrop s = s :=
        List.takeWhile_append_dropWhile jsonSpace s
      split at h
      · rename_i x r' heq
        simp only [Option.some.injEq, Prod.mk.injEq] at h
        obtain ⟨hv, hr⟩ := h
        rw [← hr]
        refine ⟨((suffix_of_eq_append ['n', 'u', 'l', 'l'] _ _ heq).trans hws), ?_⟩
        intro f hf
        rw [← hv] at hf
        exact absurd hf (by simp)
      · rename_i x r' heq
        simp only [Option.some.injEq, Prod.mk.injEq] at h
        obtain ⟨hv, hr⟩ := h
        rw [← hr]
        refine ⟨((suffix_of_eq_append ['t', 'r', 'u', 'e'] _ _ heq).trans hws), ?_⟩
        intro f hf
        rw [← hv] at hf
        exact absurd hf (by simp)
      · rename_i x r' heq
        simp only [Option.some.injEq, Prod.mk.injEq] at h
        obtain ⟨hv, hr⟩ := h
        rw [← hr]
        refine ⟨((suffix_of_eq_append ['f', 'a', 'l', 's', 'e'] _ _ heq).trans hws), ?_⟩
        intro f hf
        rw [← hv] at hf
        exact absurd hf (by simp)
      · rename_i x r' heq
        split at h
        · rename_i st r1 hsb
          simp only [Option.some.injEq, Prod.mk.injEq] at h
          obtain ⟨hv, hr⟩ := h
          rw [← hr]
          refine ⟨((strBody_suffix r'.length [] r' st r1 le_rfl hsb).trans
            ((suffix_of_eq_append ['"'] _ _ heq).trans hws)), ?_⟩
          intro f hf
          rw [← hv] at hf
          exact absurd hf (by simp)
        · exact absurd h (by simp)
      · rename_i x r' heq
        split at h
        · rename_i r2 heq2
          simp only [Option.some.injEq, Prod.mk.injEq] at h
          obtain ⟨hv, hr⟩ := h
          rw [← hr]
          have hsuf : r2 <:+ s :=
            ((suffix_of_eq_append ['\x7d'] _ _ heq2).trans
              (List.dropWhile_suffix _)).trans
              ((suffix_of_eq_append ['\x7b'] _ _ heq).trans hws)
          refine ⟨hsuf, fun f hf => ?_⟩
          refine ⟨s.takeWhile jsonSpace ++ '\x7b' :: r'.takeWhile jsonSpace, ?_⟩
          have hr' : r'.takeWhile jsonSpace ++ '\x7d' :: r2 = r' := by
            rw [← heq2]
            exact List.takeWhile_append_dropWhile jsonSpace r'
          conv_lhs => rw [← hsw, heq, ← hr']
          simp [List.append_assoc]
        · rw [Option.map_eq_some'] at h
          obtain ⟨⟨f0, r0⟩, hm, hpr⟩ := h
          simp only [Prod.mk.injEq] at hpr
          obtain ⟨hv, hr⟩ := hpr
          rw [← hr]
          obtain ⟨t0, ht0⟩ := ih2 _ f0 r0 hm
          have hsuf : r0 <:+ s :=
            ((suffix_of_eq_append (t0 ++ ['\x7d']) (wsDrop r') r0
                (by rw [ht0]; simp)).trans
              (List.dropWhile_suffix _)).trans
              ((suffix_of_eq_append ['\x7b'] _ _ heq).trans hws)
          refine ⟨hsuf, fun f hf => ?_⟩
          refine ⟨s.takeWhile jsonSpace ++ '\x7b' :: (r'.takeWhile jsonSpace ++ t0), ?_⟩
          have hr' : r'.takeWhile jsonSpace ++ wsDrop r' = r' :=
            List.takeWhile_append_dropWhile jsonSpace r'
          conv_lhs => rw [← hsw, heq, ← hr', ht0]
          simp [List.append_assoc]
      · rename_i x r' heq
        split at h
        · rename_i r2 heq2
          simp only [Option.some.injEq, Prod.mk.injEq] at h
          obtain ⟨hv, hr⟩ := h
          rw [← hr]
          refine ⟨((suffix_of_eq_append [']'] _ _ heq2).trans
            (List.dropWhile_suffix _)).trans
            ((suffix_of_eq_append ['['] _ _ heq).trans hws), ?_⟩
          intro f hf
          rw [← hv] at hf
          exact absurd hf (by simp)
        · rw [Option.map_eq_some'] at h
          obtain ⟨⟨xs0, r0⟩, hm, hpr⟩ := h
          simp only [Prod.mk.injEq] at hpr
          obtain ⟨hv, hr⟩ := hpr
          rw [← hr]
          have hr0 := ih3 _ xs0 r0 hm
          refine ⟨((hr0.trans (List.dropWhile_suffix _)).trans
            ((suffix_of_eq_append ['['] _ _ heq).trans hws)), ?_⟩
          intro f hf
          rw [← hv] at hf
          exact absurd hf (by simp)
      · obtain ⟨hsuf, q, hq⟩ := numToken_props _ v r h
        refine ⟨(hsuf.trans hws), ?_⟩
        intro f hf
        rw [hq] at hf
        exact absurd hf (by simp)
    · -- jMembers
      cases s with
      | nil => exact absurd h (by simp [jMembers])
      | cons c cs =>
        by_cases hc : c = '"'
        · subst hc
          rw [jMembers.eq_2] at h
          split at h
          · exact absurd h (by simp)
          · rename_i key r1 hsb
            split at h
            · rename_i r2 heqA
              split at h
              · exact absurd h (by simp)
              · rename_i v0 r3 hjv
                obtain ⟨c1, hc1⟩ := strBody_suffix cs.length [] cs key r1 le_rfl hsb
                have hr1 : r1.takeWhile jsonSpace ++ ':' :: r2 = r1 := by
                  rw [← heqA]
                  exact List.takeWhile_append_dropWhile jsonSpace r1
                obtain ⟨c2, hc2⟩ := (ih1 _ v0 r3 hjv).1
                split at h
                · rename_i r4 heqB
                  rw [Option.map_eq_some'] at h
                  obtain ⟨⟨f0, r5⟩, hm, hpr⟩ := h
                  simp only [Prod.mk.injEq] at hpr
                  obtain ⟨hv, hr⟩ := hpr
                  rw [← hr]
                  obtain ⟨t0, ht0⟩ := ih2 _ f0 r5 hm
                  have hr3 : r3.takeWhile jsonSpace ++ ',' :: r4 = r3 := by
                    rw [← heqB]
                    exact List.takeWhile_append_dropWhile jsonSpace r3
                  have hr4 : r4.takeWhile jsonSpace ++ wsDrop r4 = r4 :=
                    List.takeWhile_append_dropWhile jsonSpace r4
                  refine ⟨'"' :: (c1 ++ (r1.takeWhile jsonSpace ++ ':' ::
                    (c2 ++ (r3.takeWhile jsonSpace ++ ',' ::
                      (r4.takeWhile jsonSpace ++ t0))))), ?_⟩
                  conv_lhs => rw [← hc1, ← hr1, ← hc2, ← hr3, ← hr4, ht0]
                  simp [List.append_assoc]
                · rename_i r4 heqB
                  simp only [Option.some.injEq, Prod.mk.injEq] at h
                  obtain ⟨hv, hr⟩ := h
                  rw [← hr]
                  have hr3 : r3.takeWhile jsonSpace ++ '\x7d' :: r4 = r3 := by
                    rw [← heqB]
                    exact List.takeWhile_append_dropWhile jsonSpace r3
                  refine ⟨'"' :: (c1 ++ (r1.takeWhile jsonSpace ++ ':' ::
                    (c2 ++ r3.takeWhile jsonSpace))), ?_⟩
                  conv_lhs => rw [← hc1, ← hr1, ← hc2, ← hr3]
                  simp [List.append_assoc]
                · exact absurd h (by simp)
            · exact absurd h (by simp)
        · exact absurd h (by simp [jMembers, hc])
    · -- jItems
      rw [jItems.eq_2] at h
      split at h
      · exact absurd h (by simp)
      · rename_i v0 r0 hjv
        have hr0 := (ih1 _ v0 r0 hjv).1
        split at h
        · rename_i r2 heqA
          rw [Option.map_eq_some'] at h
          obtain ⟨⟨xs0, r3⟩, hm, hpr⟩ := h
          simp only [Prod.mk.injEq] at hpr
          obtain ⟨hv, hr⟩ := hpr
          rw [← hr]
          have hr3 := ih3 _ xs0 r3 hm
          exact ((hr3.trans (suffix_of_eq_append [','] _ _ heqA)).trans
            (List.dropWhile_suffix _)).trans hr0
        · rename_i r2 heqA
          simp only [Option.some.injEq, Prod.mk.injEq] at h
          obtain ⟨hv, hr⟩ := h
          rw [← hr]
          exact ((suffix_of_eq_append [']'] _ _ heqA).trans
            (List.dropWhile_suffix _)).trans hr0
        · exact absurd h (by simp)

/-- A string `json.loads` parses to an object consists of consumed text
ending in the closing brace, followed only by JSON whitespace. -/
theorem loads_obj_shape (J : String) (fields : List (String × JVal))
    (h : loadsValue J = some (.jobj fields)) :
    ∃ t rest, J.data = t ++ '\x7d' :: rest ∧ ∀ c ∈ rest, jsonSpace c = true := by
  unfold loadsValue at h
  split at h
  · rename_i v r0 hjv
    split at h
    · rename_i hz
      simp only [Option.some.injEq] at h
      subst h
      obtain ⟨t, ht⟩ := ((parse_shape (J.length + 1)).1 J.data _ r0 hjv).2 fields rfl
      exact ⟨t, r0, ht, fun c hc => List.dropWhile_eq_nil_iff.mp hz c hc⟩
    · exact absurd h (by simp)
  · exact absurd h (by simp)

/-- Stripping a parsed-object text leaves the brace as the final character:
the trailing whitespace and the leading whitespace go. -/
theorem pyStrip_json (t rest : List Char) (hpws : ∀ c ∈ rest, pySpace c = true) :
    pyStrip (t ++ '\x7d' :: rest) = t.dropWhile pySpace ++ ['\x7d'] := by
  unfold pyStrip
  have h1 : (t ++ '\x7d' :: rest).dropWhile pySpace =
      t.dropWhile pySpace ++ '\x7d' :: rest := by
    rw [List.dropWhile_append]
    by_cases he : (t.dropWhile pySpace).isEmpty = true
    · rw [if_pos he, List.isEmpty_iff.mp he]
      simp [List.dropWhile_cons, show pySpace '\x7d' = false from rfl]
    · rw [if_neg he]
  rw [h1]
  rw [show (t.dropWhile pySpace ++ '\x7d' :: rest).reverse =
      rest.reverse ++ '\x7d' :: (t.dropWhile pySpace).reverse from by simp]
  rw [List.dropWhile_append]
  rw [List.dropWhile_eq_nil_iff.mpr (fun c hc => hpws c (by simpa using hc))]
  simp only [List.isEmpty_nil, if_true]
  rw [show (('\x7d' : Char) :: (t.dropWhile pySpace).reverse).dropWhile pySpace =
      ('\x7d' : Char) :: (t.dropWhile pySpace).reverse from by
    simp [List.dropWhile_cons, show pySpace '\x7d' = false from rfl]]
  simp

/-- Fence-stripping a fenced parsed-object text and a bare one normalize to
the same string: the leading `\x60\x60\x60json\n` and the trailing
`\n\x60\x60\x60` are removed whole — no occurrence of either marker can
straddle the payload boundary because the payload ends in the closing brace
— and the remaining whitespace is stripped. -/
theorem processed_fence_eq (t rest : List Char) (hws : ∀ c ∈ rest, jsonSpace c = true) :
    pyStrip (pyReplace tickPat [] (pyReplace fencePat []
      (pyStrip (fencePat ++ (t ++ '\x7d' :: rest) ++ "\n```".data)))) =
    pyStrip (pyReplace tickPat [] (pyReplace fencePat []
      (pyStrip (t ++ '\x7d' :: rest)))) := by
  have hpws : ∀ c ∈ rest, pySpace c = true := fun c hc => pySpace_of_jsonSpace c (hws c hc)
  obtain ⟨fp0, fpT, hfp, hfp0ws⟩ : ∃ c cs, fencePat = c :: cs ∧ pySpace c = false :=
    ⟨Char.ofNat 96, "``json\n".data, by with_unfolding_all rfl, by with_unfolding_all rfl⟩
  obtain ⟨tk0, tkT, htk, htk0ws⟩ : ∃ c cs, tickPat = c :: cs ∧ pySpace c = false :=
    ⟨Char.ofNat 96, "``".data, by with_unfolding_all rfl, by with_unfolding_all rfl⟩
  have hfphead : fencePat.head? = some fp0 := by rw [hfp]; rfl
  have htkhead : tickPat.head? = some tk0 := by rw [htk]; rfl
  have hfpne : fencePat ≠ [] := by rw [hfp]; simp
  have hwsL : ∀ c ∈ t.takeWhile pySpace, pySpace c = true :=
    fun c hc => List.mem_takeWhile_imp hc
  have htw : t.takeWhile pySpace ++ t.dropWhile pySpace = t :=
    List.takeWhile_append_dropWhile pySpace t
  have hB : ∀ c, (rest ++ "\n```".data).head? = some c → pySpace c = true := by
    intro c hc
    cases rest with
    | nil =>
      rw [show (([] : List Char) ++ "\n```".data).head? = some '\n' from by
        with_unfolding_all rfl] at hc
      injection hc with hcc
      rw [← hcc]
      rfl
    | cons a as =>
      rw [show ((a :: as) ++ "\n```".data).head? = some a from rfl] at hc
      injection hc with hcc
      rw [← hcc]
      exact hpws a (by simp)
  -- the outer strip of the fenced text is the identity
  have hstripF : pyStrip (fencePat ++ (t ++ '\x7d' :: rest) ++ "\n```".data) =
      fencePat ++ (t ++ '\x7d' :: rest) ++ "\n```".data := by
    apply pyStrip_eq_self
    · intro c hc
      rw [show fencePat ++ (t ++ '\x7d' :: rest) ++ "\n```".data =
          fp0 :: (fpT ++ ((t ++ '\x7d' :: rest) ++ "\n```".data)) from by
        rw [hfp]; simp] at hc
      injection hc with hcc
      rw [← hcc]
      exact hfp0ws
    · intro c hc
      rw [show (fencePat ++ (t ++ '\x7d' :: rest) ++ "\n```".data).reverse =
          Char.ofNat 96 :: ("``\n".data ++ (fencePat ++ (t ++ '\x7d' :: rest)).reverse)
          from by
        rw [List.reverse_append]
        rw [show ("\n```".data).reverse = Char.ofNat 96 :: "``\n".data from by
          with_unfolding_all rfl]
        rfl] at hc
      injection hc with hcc
      rw [← hcc]
      with_unfolding_all rfl
  -- re-associate the fenced text around its payload pieces
  have hassoc : fencePat ++ (t ++ '\x7d' :: rest) ++ "\n```".data =
      fencePat ++ (t.takeWhile pySpace ++ ((t.dropWhile pySpace ++ ['\x7d']) ++
        (rest ++ "\n```".data))) := by
    conv_lhs => rw [← htw]
    simp only [List.append_assoc, List.cons_append, List.nil_append]
  -- first replacement: the leading marker goes, nothing else matches except
  -- inside the payload body
  have hrep1 : pyReplace fencePat [] (fencePat ++ (t.takeWhile pySpace ++
      ((t.dropWhile pySpace ++ ['\x7d']) ++ (rest ++ "\n```".data)))) =
      t.takeWhile pySpace ++ ((pyReplace fencePat [] (t.dropWhile pySpace ++ ['\x7d'])) ++
        (rest ++ "\n```".data)) := by
    rw [pyReplace_head fencePat [] _ hfpne]
    rw [pyReplace_append fencePat [] (t.takeWhile pySpace).length (t.takeWhile pySpace)
      ((t.dropWhile pySpace ++ ['\x7d']) ++ (rest ++ "\n```".data)) le_rfl
      (no_span_of_ws fencePat fp0 hfphead hfp0ws _ _ hwsL)]
    rw [pyReplace_ws_eq_self fencePat [] fp0 hfphead hfp0ws _ hwsL]
    rw [pyReplace_append fencePat [] (t.dropWhile pySpace ++ ['\x7d']).length
      (t.dropWhile pySpace ++ ['\x7d']) (rest ++ "\n```".data) le_rfl
      (fence_no_span (t.dropWhile pySpace) (rest ++ "\n```".data) hB)]
    rw [pyReplace_append fencePat [] rest.length rest ("\n```".data) le_rfl
      (no_span_of_ws fencePat fp0 hfphead hfp0ws _ _ hpws)]
    rw [pyReplace_ws_eq_self fencePat [] fp0 hfphead hfp0ws rest hpws]
    rw [show pyReplace fencePat [] ("\n```".data) = "\n```".data from
      pyReplace_short_eq_self fencePat [] _ (by
        rw [show ("\n```".data).length = 4 from rfl, show fencePat.length = 8 from rfl]
        omega)]
    simp only [List.nil_append]
  -- second replacement: only the trailing marker remains to go
  have hBn : ∀ c, (rest ++ ['\n']).head? = some c → pySpace c = true := by
    intro c hc
    cases rest with
    | nil =>
      rw [show (([] : List Char) ++ ['\n']).head? = some '\n' from rfl] at hc
      injection hc with hcc
      rw [← hcc]
      rfl
    | cons a as =>
      rw [show ((a :: as) ++ ['\n']).head? = some a from rfl] at hc
      injection hc with hcc
      rw [← hcc]
      exact hpws a (by simp)
  have hrep2 : pyReplace tickPat [] (t.takeWhile pySpace ++
      ((pyReplace fencePat [] (t.dropWhile pySpace ++ ['\x7d'])) ++
        (rest ++ "\n```".data))) =
      t.takeWhile pySpace ++
        ((pyReplace tickPat [] (pyReplace fencePat [] (t.dropWhile pySpace ++ ['\x7d']))) ++
          (rest ++ ['\n'])) := by
    rw [pyReplace_append tickPat [] (t.takeWhile pySpace).length (t.takeWhile pySpace)
      ((pyReplace fencePat [] (t.dropWhile pySpace ++ ['\x7d'])) ++ (rest ++ "\n```".data))
      le_rfl (no_span_of_ws tickPat tk0 htkhead htk0ws _ _ hwsL)]
    rw [pyReplace_ws_eq_self tickPat [] tk0 htkhead htk0ws _ hwsL]
    rw [pyReplace_append tickPat []
      (pyReplace fencePat [] (t.dropWhile pySpace ++ ['\x7d'])).length
      (pyReplace fencePat [] (t.dropWhile pySpace ++ ['\x7d'])) (rest ++ "\n```".data)
      le_rfl (tick_no_span _ (rest ++ "\n```".data) hB)]
    rw [pyReplace_append tickPat [] rest.length rest ("\n```".data) le_rfl
      (no_span_of_ws tickPat tk0 htkhead htk0ws _ _ hpws)]
    rw [pyReplace_ws_eq_self tickPat [] tk0 htkhead htk0ws rest hpws]
    rw [show pyReplace tickPat [] ("\n```".data) = ['\n'] from by with_unfolding_all rfl]
  -- strip of the padded result is strip of the core
  rw [hstripF, hassoc, hrep1, hrep2]
  rw [show t.takeWhile pySpace ++
      ((pyReplace tickPat [] (pyReplace fencePat [] (t.dropWhile pySpace ++ ['\x7d']))) ++
        (rest ++ ['\n'])) =
      t.takeWhile pySpace ++
        (pyReplace tickPat [] (pyReplace fencePat [] (t.dropWhile pySpace ++ ['\x7d']))) ++
        (rest ++ ['\n']) from by simp [List.append_assoc]]
  rw [pyStrip_pad _ _ _ hwsL (by
    intro c hc
    rcases List.mem_append.mp hc with hc1 | hc1
    · exact hpws c hc1
    · rw [List.mem_singleton.mp hc1]
      rfl)]
  rw [pyStrip_json t rest hpws]

/-- C9: the estimator parses a model response consisting of a valid JSON
object surrounded by the code-fence markers to exactly the same value as the
bare JSON — the fence stripping before `json.loads` is semantics-preserving
(the markers are removed whole, leaving the payload intact, because a parsed
object ends in its closing brace and whitespace). -/
theorem fence_stripping_preserves_estimate (J : String)
    (fields : List (String × JVal)) (m : Market) (sources : List NewsSource)
    (h : loadsValue J = some (.jobj fields)) :
    analyze_event (fun _ => .ok ("```json\n" ++ J ++ "\n```")) m sources =
      analyze_event (fun _ => .ok J) m sources := by
  obtain ⟨t, rest, hJ, hws⟩ := loads_obj_shape J fields h
  have key : processText ("```json\n" ++ J ++ "\n```") = processText J := by
    unfold processText
    congr 1
    rw [show ("```json\n" ++ J ++ "\n```").data =
        fencePat ++ J.data ++ "\n```".data from by
      simp [String.data_append, fencePat]]
    rw [hJ]
    exact processed_fence_eq t rest hws
  unfold analyze_event parseModelResponse
  simp only []
  rw [key]

/-- Witness for C9 on a concrete three-key object answer. -/
theorem fence_stripping_preserves_estimate_witness :
    analyze_event (fun _ => .ok ("```json\n" ++ jGood ++ "\n```")) mBlank [] =
      analyze_event (fun _ => .ok jGood) mBlank [] :=
  fence_stripping_preserves_estimate jGood jGoodFields mBlank []
    (by with_unfolding_all rfl)

end KalshiSpec
